import Mathlib

/-!
Verification development for src/hash.h: a fixed-capacity, chained,
type-erased hash table with operations HashTable_Init, HashTable_Destroy,
HashTable_Has, HashTable_At and HashTable_Ready.

Modelling conventions:
* `void*` keys and values become type parameters `K` and `V`.
* Nullable pointers and nullable function pointers become `Option`;
  the `element` field of a pair, initialised to 0 by HashTable_At, is
  `Option V` with `none` as the zero placeholder.
* A bucket chain (a `HashList` linked list) is a `List (HashPair K V)`;
  the bucket array is a `List` of chains, allocated with length HASHSIZE.
* A reference to a value slot (the C functions return `&pair->element`)
  is the stable coordinate (bucket index, position in chain); chain nodes
  are only ever appended at the tail, so coordinates of existing entries
  never move.
* The hash strategy models the `unsigned int` the C callback returns, so
  its value is taken as-is and reduced modulo HASHSIZE by the table.
* The `onRemove` callback runs caller code; HashTable_Destroy therefore
  returns, besides the new table state, the log of pairs it passed to the
  callback, in invocation order.
* HashTable_Has and HashTable_At dereference the strategy pointers without
  a null check; on a non-ready table that is undefined behaviour in C and
  is mapped to `none` here.  The do-while loop of HashTable_At re-tests
  the loop condition `cmp(key, ...)` on a node it has just inserted, so it
  diverges when `cmp key key` is nonzero; the denotation `atChain` maps
  that divergence to `none`, and the step-indexed `atChainFuel` is proved
  to agree with it.
-/

namespace Chash

variable {K V : Type}

/-- the fixed bucket-array capacity, `#define HASHSIZE 101` in src/hash.h;
it is a compile-time constant and never changes. -/
def HASHSIZE : Nat := 101

/-- struct HashPair: one stored key together with its value slot
(`void* element`, whose zero placeholder is `none`). -/
structure HashPair (K V : Type) where
  key : K
  element : Option V
  deriving DecidableEq

/-- struct HashTable: the bucket array pointer (null before Init), the
equality strategy `cmp`, the hash strategy `hash` (null doubles as the
not-ready sentinel) and the optional release callback `onRemove`, kept
abstract as a presence flag because its body is caller code. -/
structure HashTable (K V : Type) where
  hashListArr : Option (List (List (HashPair K V)))
  cmp : Option (K → K → Int)
  hash : Option (K → Nat)
  onRemove : Bool

/-- the all-zero `struct HashTable t = {0}` pre-initialization state:
every field is null. -/
def zeroTable (K V : Type) : HashTable K V :=
  { hashListArr := none, cmp := none, hash := none, onRemove := false }

/-- HashTable_Init: records the three strategies and callocs a bucket
array of HASHSIZE null chain heads.  The C function writes through the
given pointer and returns it; here the updated table value is returned. -/
def HashTable_Init (t : HashTable K V) (cmp : Option (K → K → Int))
    (hash : Option (K → Nat)) (onRemove : Bool) : HashTable K V :=
  { hashListArr := some (List.replicate HASHSIZE ([] : List (HashPair K V))),
    cmp := cmp, hash := hash, onRemove := onRemove }

/-- HashTable_Ready: `return hashTable && hashTable->hash;`.  The argument
is an `Option` because the C function accepts a possibly-null pointer. -/
def HashTable_Ready (t : Option (HashTable K V)) : Bool :=
  match t with
  | none => false
  | some ht => ht.hash.isSome

/-- HashTable_Destroy: `if(hashTable && HashTable_Ready(hashTable))` walk
buckets 0..HASHSIZE-1 in order and each chain front to back, call
`onRemove` on each pair when the callback was supplied, free every node,
every pair and the bucket array, and clear the readiness sentinel
(`hashTable->hash = 0`).  The freed heap storage has no representation
here; as in the C struct, the dangling `hashListArr` field keeps its
value and only `hash` is cleared.  The second component is the list of
pairs passed to `onRemove`, in invocation order.  A null pointer or a
non-ready table makes the call a no-op. -/
def HashTable_Destroy (t : Option (HashTable K V)) :
    Option (HashTable K V) × List (HashPair K V) :=
  match t with
  | none => (none, [])
  | some ht =>
    if HashTable_Ready (some ht) then
      (some { ht with hash := none },
       if ht.onRemove then (ht.hashListArr.getD []).flatten else [])
    else (some ht, [])

/-- the chain walk of HashTable_Has: position of the first pair in the
chain whose key the equality strategy declares equal (cmp returns 0),
if any. -/
def hasChain (c : K → K → Int) (key : K) : List (HashPair K V) → Option Nat
  | [] => none
  | p :: rest =>
    if c key p.key = 0 then some 0 else (hasChain c key rest).map (· + 1)

/-- HashTable_Has: computes the bucket index `hash(key) % HASHSIZE`, walks
that chain while `cmp` is nonzero, and returns a reference to the element
slot of the matching pair, or null when the chain is exhausted. -/
def HashTable_Has (t : HashTable K V) (key : K) : Option (Nat × Nat) :=
  match t.hash, t.cmp, t.hashListArr with
  | some h, some c, some arr =>
    (hasChain c key (arr.getD (h key % HASHSIZE) [])).map
      (fun i => (h key % HASHSIZE, i))
  | _, _, _ => none

/-- denotation of the do-while loop of HashTable_At on one chain: walk the
chain and stop at the first pair whose key compares equal (cmp returns 0);
when the chain is exhausted, append a fresh pair with the given key and a
null element, then re-test the loop condition on the pair just inserted,
which is `cmp key key`.  When `cmp key key` is nonzero the C loop inserts
another node and repeats forever; that divergence is `none` here (see
`atChainFuel` for the step-indexed loop and the agreement lemmas).
The result is the updated chain and the position answering the call. -/
def atChain (c : K → K → Int) (key : K) :
    List (HashPair K V) → Option (List (HashPair K V) × Nat)
  | [] =>
    if c key key = 0 then some ([⟨key, none⟩], 0) else none
  | p :: rest =>
    if c key p.key = 0 then some (p :: rest, 0)
    else (atChain c key rest).map (fun x => (p :: x.1, x.2 + 1))

/-- the do-while loop of HashTable_At with an explicit iteration budget:
each loop iteration consumes one unit of fuel, and running out of fuel
yields `none`.  In the exhausted-chain case the freshly inserted pair
stays in the chain and the loop continues from its null `next` field. -/
def atChainFuel (c : K → K → Int) (key : K) :
    Nat → List (HashPair K V) → Option (List (HashPair K V) × Nat)
  | 0, _ => none
  | fuel + 1, [] =>
    if c key key = 0 then some ([⟨key, none⟩], 0)
    else (atChainFuel c key fuel []).map
      (fun x => ((⟨key, none⟩ : HashPair K V) :: x.1, x.2 + 1))
  | fuel + 1, p :: rest =>
    if c key p.key = 0 then some (p :: rest, 0)
    else (atChainFuel c key fuel rest).map (fun x => (p :: x.1, x.2 + 1))

/-- HashTable_At: computes the bucket index `hash(key) % HASHSIZE`, runs
the search-or-append loop on that chain and returns the reference to the
matching or freshly created value slot together with the updated table. -/
def HashTable_At (t : HashTable K V) (key : K) :
    Option ((Nat × Nat) × HashTable K V) :=
  match t.hash, t.cmp, t.hashListArr with
  | some h, some c, some arr =>
    (atChain c key (arr.getD (h key % HASHSIZE) [])).map
      (fun x => ((h key % HASHSIZE, x.2),
        { t with hashListArr := some (arr.set (h key % HASHSIZE) x.1) }))
  | _, _, _ => none

/-- overwrite the element slot at one position of a chain, leaving every
key and every other slot in place. -/
def setElem : List (HashPair K V) → Nat → V → List (HashPair K V)
  | [], _, _ => []
  | p :: rest, 0, v => { p with element := some v } :: rest
  | p :: rest, n + 1, v => p :: setElem rest n v

/-- the chain stored at one bucket of the table (empty for a null array
or an out-of-range index). -/
def bucketOf (t : HashTable K V) (b : Nat) : List (HashPair K V) :=
  (t.hashListArr.getD []).getD b []

/-- all entries of the table, in bucket-index order and chain order. -/
def entriesOf (t : HashTable K V) : List (HashPair K V) :=
  (t.hashListArr.getD []).flatten

/-- total number of entries stored in the table. -/
def entryCount (t : HashTable K V) : Nat := (entriesOf t).length

/-- the pair a value-slot reference (bucket, position) points at. -/
def entryAt (t : HashTable K V) (r : Nat × Nat) : Option (HashPair K V) :=
  (bucketOf t r.1)[r.2]?

/-- reading a stored value through a value-slot reference. -/
def readRef (t : HashTable K V) (r : Nat × Nat) : Option V :=
  (entryAt t r).bind (fun p => p.element)

/-- the caller writing a value through a value-slot reference, as the C
client does with `*(T*)HashTable_At(&table, key) = v`. -/
def writeRef (t : HashTable K V) (r : Nat × Nat) (v : V) : HashTable K V :=
  match t.hashListArr with
  | none => t
  | some arr =>
    { t with
      hashListArr := some (arr.set r.1 (setElem (arr.getD r.1 []) r.2 v)) }

/-- run a sequence of HashTable_At calls, one per key, threading the
table; `none` when some call diverges or hits undefined behaviour. -/
def processAt : HashTable K V → List K → Option (HashTable K V)
  | t, [] => some t
  | t, k :: rest =>
    match HashTable_At t k with
    | none => none
    | some (_, t') => processAt t' rest

/-- number of keys of the second list that open a fresh equivalence class
with respect to cmp, the first list being the classes already present. -/
def newCount (c : K → K → Int) : List K → List K → Nat
  | _, [] => 0
  | seen, k :: rest =>
    if seen.any (fun s => decide (c k s = 0)) then newCount c seen rest
    else 1 + newCount c (k :: seen) rest

/-- number of distinct keys of a sequence, distinctness judged by the
equality strategy. -/
def distinctCount (c : K → K → Int) (ks : List K) : Nat := newCount c [] ks

/-- well-formedness of an allocated bucket array under strategies `c` and
`h`: it has HASHSIZE buckets, every pair sits in the bucket selected by
the hash of its key, and no chain holds two pairs with cmp-equal keys. -/
structure Inv (c : K → K → Int) (h : K → Nat)
    (arr : List (List (HashPair K V))) : Prop where
  len : arr.length = HASHSIZE
  placed : ∀ b, ∀ p ∈ arr.getD b [], h p.key % HASHSIZE = b
  nodup : ∀ b, (arr.getD b []).Pairwise (fun p q => c p.key q.key ≠ 0)

/-- a concrete equality strategy on Nat keys for witness instances. -/
def cNat : Nat → Nat → Int := fun a b => if a = b then 0 else 1

/-- a concrete hash strategy on Nat keys for witness instances. -/
def hNat : Nat → Nat := fun a => a

/-- a concrete ready table for witness instances. -/
def tNat : HashTable Nat Nat :=
  HashTable_Init (zeroTable Nat Nat) (some cNat) (some hNat) true

/-! General list helpers used throughout. -/

/-- writing back the value already stored at an index leaves a list
unchanged (out-of-range writes are no-ops). -/
lemma set_getD_self {α : Type} (l : List α) (n : Nat) (d : α) :
    l.set n (l.getD n d) = l := by
  induction l generalizing n with
  | nil => rfl
  | cons p rest ih =>
    cases n with
    | zero => simp
    | succ m => simp only [List.getD_cons_succ, List.set_cons_succ, ih]

/-- reading an in-range index just after writing it gives the value
written. -/
lemma getD_set_self {α : Type} {l : List α} {n : Nat} (x d : α)
    (hn : n < l.length) : (l.set n x).getD n d = x := by
  rw [List.getD_eq_getElem _ _ (by simpa using hn)]
  exact List.getElem_set_self _

/-- writing one index leaves reads of every other index unchanged. -/
lemma getD_set_ne {α : Type} {l : List α} {n m : Nat} (x d : α)
    (hne : n ≠ m) : (l.set n x).getD m d = l.getD m d := by
  by_cases hm : m < l.length
  · rw [List.getD_eq_getElem _ _ (by simpa using hm),
      List.getD_eq_getElem _ _ hm]
    exact List.getElem_set_ne hne _
  · rw [List.getD_eq_default _ _ (by simpa using Nat.le_of_not_lt hm),
      List.getD_eq_default _ _ (Nat.le_of_not_lt hm)]

/-- every slot of a replicated list reads back the replicated value, also
out of range when the default is that same value. -/
lemma getD_replicate_self {α : Type} (n b : Nat) (x : α) :
    (List.replicate n x).getD b x = x := by
  by_cases hb : b < n
  · rw [List.getD_eq_getElem _ _ (by simpa using hb)]
    exact List.getElem_replicate _ _
  · exact List.getD_eq_default _ _ (by simpa using Nat.le_of_not_lt hb)

/-- rebuilding a table value with the bucket array it already holds gives
the same table. -/
lemma table_eta (t : HashTable K V) (arr : List (List (HashPair K V)))
    (ha : t.hashListArr = some arr) :
    { t with hashListArr := some arr } = t := by
  cases t
  simp only [HashTable.mk.injEq, and_true, true_and]
  simpa using ha.symm

/-- HashTable_At unfolded on a table whose three pointers are non-null. -/
lemma At_eq (t : HashTable K V) (c : K → K → Int) (h : K → Nat)
    (arr : List (List (HashPair K V))) (key : K)
    (hc : t.cmp = some c) (hh : t.hash = some h)
    (ha : t.hashListArr = some arr) :
    HashTable_At t key =
      (atChain c key (arr.getD (h key % HASHSIZE) [])).map
        (fun x => ((h key % HASHSIZE, x.2),
          { t with hashListArr := some (arr.set (h key % HASHSIZE) x.1) })) := by
  unfold HashTable_At
  rw [hc, hh, ha]

/-- HashTable_Has unfolded on a table whose three pointers are non-null. -/
lemma Has_eq (t : HashTable K V) (c : K → K → Int) (h : K → Nat)
    (arr : List (List (HashPair K V))) (key : K)
    (hc : t.cmp = some c) (hh : t.hash = some h)
    (ha : t.hashListArr = some arr) :
    HashTable_Has t key =
      (hasChain c key (arr.getD (h key % HASHSIZE) [])).map
        (fun i => (h key % HASHSIZE, i)) := by
  unfold HashTable_Has
  rw [hc, hh, ha]

/-- HashTable_Destroy unfolded on a non-null pointer. -/
lemma Destroy_some (t : HashTable K V) :
    HashTable_Destroy (some t) =
      if HashTable_Ready (some t) then
        (some { t with hash := none },
         if t.onRemove then (t.hashListArr.getD []).flatten else [])
      else (some t, []) := rfl

/-! Claims C3, C5, C7, C8, C9: teardown, bucket selection, readiness. -/

/-- C3: on a ready table, destroy invokes the release strategy, when one
was supplied, exactly once for every entry present at the call, passing
each invocation that entry's own pair, in bucket-index order and chain
order; afterwards isReady reports false. -/
theorem claim_C3 [DecidableEq K] [DecidableEq V] (t : HashTable K V)
    (hready : HashTable_Ready (some t) = true) :
    HashTable_Ready ((HashTable_Destroy (some t)).1) = false ∧
    (t.onRemove = true →
      (HashTable_Destroy (some t)).2 = entriesOf t ∧
      ∀ p : HashPair K V,
        ((HashTable_Destroy (some t)).2).count p = (entriesOf t).count p) := by
  rw [Destroy_some, hready, if_pos rfl]
  refine ⟨rfl, fun ho => ?_⟩
  rw [ho, if_pos rfl]
  exact ⟨rfl, fun p => rfl⟩

/-- C3 witness at a concrete ready table with the release flag set. -/
theorem claim_C3_witness :
    HashTable_Ready ((HashTable_Destroy (some tNat)).1) = false ∧
    (tNat.onRemove = true →
      (HashTable_Destroy (some tNat)).2 = entriesOf tNat ∧
      ∀ p : HashPair Nat Nat,
        ((HashTable_Destroy (some tNat)).2).count p =
          (entriesOf tNat).count p) :=
  claim_C3 tNat rfl


/-- C5: on a ready table both lookup and getOrInsert act on the bucket at
index hash(key) mod capacity, the capacity is the constant 101, and
getOrInsert keeps the bucket count at 101 and leaves every other bucket
untouched. -/
theorem claim_C5 (t : HashTable K V) (c : K → K → Int) (h : K → Nat)
    (arr : List (List (HashPair K V))) (k : K)
    (hc : t.cmp = some c) (hh : t.hash = some h)
    (ha : t.hashListArr = some arr) (hlen : arr.length = HASHSIZE) :
    HASHSIZE = 101 ∧
    (∀ r, HashTable_Has t k = some r → r.1 = h k % HASHSIZE) ∧
    (∀ r t', HashTable_At t k = some (r, t') →
      r.1 = h k % HASHSIZE ∧
      ∃ arr', t'.hashListArr = some arr' ∧ arr'.length = HASHSIZE ∧
        ∀ b, b ≠ h k % HASHSIZE → arr'.getD b [] = arr.getD b []) := by
  refine ⟨rfl, ?_, ?_⟩
  · rw [Has_eq t c h arr k hc hh ha]
    rintro r hr
    rcases Option.map_eq_some'.mp hr with ⟨i, _, hri⟩
    rw [← hri]
  · rw [At_eq t c h arr k hc hh ha]
    rintro r t' hrt
    rcases Option.map_eq_some'.mp hrt with ⟨x, _, hx⟩
    rcases Prod.mk.injEq .. ▸ hx with ⟨hr, ht'⟩
    refine ⟨by rw [← hr], arr.set (h k % HASHSIZE) x.1, ?_, ?_, ?_⟩
    · rw [← ht']
    · rw [List.length_set]; exact hlen
    · intro b hb
      exact getD_set_ne _ _ (fun e => hb e.symm)

/-- C5 witness at a concrete ready table and key. -/
theorem claim_C5_witness :
    HASHSIZE = 101 ∧
    (∀ r, HashTable_Has tNat 5 = some r → r.1 = hNat 5 % HASHSIZE) ∧
    (∀ r t', HashTable_At tNat 5 = some (r, t') →
      r.1 = hNat 5 % HASHSIZE ∧
      ∃ arr', t'.hashListArr = some arr' ∧ arr'.length = HASHSIZE ∧
        ∀ b, b ≠ hNat 5 % HASHSIZE →
          arr'.getD b [] =
            (List.replicate HASHSIZE ([] : List (HashPair Nat Nat))).getD b []) :=
  claim_C5 tNat cNat hNat _ 5 rfl rfl rfl (List.length_replicate ..)

/-- C7: isReady returns true exactly when the hash strategy pointer is
non-null; it is false on the all-zero table, false through a null table
pointer, and false right after a destroy of a ready table. -/
theorem claim_C7 (t : HashTable K V) :
    (HashTable_Ready (some t) = t.hash.isSome) ∧
    HashTable_Ready (some (zeroTable K V)) = false ∧
    HashTable_Ready (none : Option (HashTable K V)) = false ∧
    (HashTable_Ready (some t) = true →
      HashTable_Ready ((HashTable_Destroy (some t)).1) = false) := by
  refine ⟨rfl, rfl, rfl, fun hready => ?_⟩
  rw [Destroy_some, hready, if_pos rfl]
  rfl

/-- C8: destroy of a table that is not ready, the all-zero table included,
is a no-op: no callback fires and the table value is unchanged. -/
theorem claim_C8 (t : HashTable K V)
    (hnr : HashTable_Ready (some t) = false) :
    HashTable_Destroy (some t) = (some t, []) := by
  rw [Destroy_some, hnr, if_neg (by simp)]

/-- C8 witness at the all-zero table. -/
theorem claim_C8_witness :
    HashTable_Ready (some (zeroTable Nat Nat)) = false ∧
    HashTable_Destroy (some (zeroTable Nat Nat)) =
      (some (zeroTable Nat Nat), []) :=
  ⟨rfl, claim_C8 (zeroTable Nat Nat) rfl⟩

/-- C9: called through a null table pointer, isReady returns false and
destroy is a no-op returning immediately; neither dereferences the
pointer. -/
theorem claim_C9 (K V : Type) :
    HashTable_Ready (none : Option (HashTable K V)) = false ∧
    HashTable_Destroy (none : Option (HashTable K V)) = (none, []) :=
  ⟨rfl, rfl⟩

/-! Chain-walk lemmas: hasChain, atChain, atChainFuel. -/

/-- the chain walk misses exactly when no pair of the chain has a
cmp-equal key. -/
lemma hasChain_eq_none_iff (c : K → K → Int) (key : K)
    (l : List (HashPair K V)) :
    hasChain c key l = none ↔ ∀ p ∈ l, c key p.key ≠ 0 := by
  induction l with
  | nil => simp [hasChain]
  | cons p rest ih =>
    by_cases hp : c key p.key = 0 <;> simp [hasChain, hp, ih]

/-- a hit of the chain walk is an in-range position holding a pair with a
cmp-equal key. -/
lemma hasChain_some_spec {c : K → K → Int} {key : K}
    {l : List (HashPair K V)} {i : Nat} (h : hasChain c key l = some i) :
    i < l.length ∧ ∃ p, l[i]? = some p ∧ c key p.key = 0 := by
  induction l generalizing i with
  | nil => simp [hasChain] at h
  | cons p rest ih =>
    by_cases hp : c key p.key = 0
    · simp [hasChain, hp] at h
      subst h
      exact ⟨Nat.succ_pos _, p, by simp, hp⟩
    · simp [hasChain, hp] at h
      rcases h with ⟨j, hj, rfl⟩
      rcases ih hj with ⟨hlt, q, hq, hcq⟩
      exact ⟨Nat.succ_lt_succ hlt, q, by simpa using hq, hcq⟩

/-- the chain walk only looks at keys: chains with the same key sequence
walk the same way. -/
lemma hasChain_congr (c : K → K → Int) (key : K)
    {l₁ l₂ : List (HashPair K V)}
    (h : l₁.map HashPair.key = l₂.map HashPair.key) :
    hasChain c key l₁ = hasChain c key l₂ := by
  induction l₁ generalizing l₂ with
  | nil => cases l₂ <;> simp_all [hasChain]
  | cons p rest ih =>
    cases l₂ with
    | nil => simp at h
    | cons q rest₂ =>
      simp only [List.map_cons, List.cons.injEq] at h
      rw [hasChain, hasChain, h.1, ih h.2]

/-- overwriting one element slot changes no key. -/
lemma setElem_map_key (l : List (HashPair K V)) (n : Nat) (v : V) :
    (setElem l n v).map HashPair.key = l.map HashPair.key := by
  induction l generalizing n with
  | nil => rfl
  | cons p rest ih =>
    cases n with
    | zero => simp [setElem]
    | succ m => simp [setElem, ih]

/-- reading the position just overwritten gives the old pair with its
element slot replaced by the written value. -/
lemma setElem_getElem? {l : List (HashPair K V)} {n : Nat}
    {p : HashPair K V} (h : l[n]? = some p) (v : V) :
    (setElem l n v)[n]? = some { p with element := some v } := by
  induction l generalizing n with
  | nil => simp at h
  | cons q rest ih =>
    cases n with
    | zero =>
      simp only [List.getElem?_cons_zero, Option.some.injEq] at h
      subst h
      simp [setElem]
    | succ m => simpa [setElem] using ih (by simpa using h)

/-- overwriting the slot at the very end of a freshly appended pair. -/
lemma setElem_append_length (l : List (HashPair K V)) (p : HashPair K V)
    (v : V) :
    setElem (l ++ [p]) l.length v = l ++ [{ p with element := some v }] := by
  induction l with
  | nil => rfl
  | cons q rest ih => simp [setElem, ih]

/-- walking a chain extended at the tail, after a miss on the old part,
hits the appended pair exactly when its key compares equal. -/
lemma hasChain_append (c : K → K → Int) (key : K)
    {l : List (HashPair K V)} (h : hasChain c key l = none)
    (p : HashPair K V) :
    hasChain c key (l ++ [p]) =
      if c key p.key = 0 then some l.length else none := by
  induction l with
  | nil => simp [hasChain]
  | cons q rest ih =>
    by_cases hq : c key q.key = 0
    · simp [hasChain, hq] at h
    · simp only [hasChain, hq, if_false, Option.map_eq_none'] at h
      simp only [List.cons_append, hasChain, hq, if_false, List.length_cons,
        List.append_eq]
      rw [ih h]
      by_cases hp : c key p.key = 0 <;> simp [hp]

/-- a hit of the search makes the do-while loop of HashTable_At stop
there, chain unchanged. -/
lemma atChain_of_found {c : K → K → Int} {key : K}
    {l : List (HashPair K V)} {i : Nat} (h : hasChain c key l = some i) :
    atChain c key l = some (l, i) := by
  induction l generalizing i with
  | nil => simp [hasChain] at h
  | cons p rest ih =>
    by_cases hp : c key p.key = 0
    · simp [hasChain, hp] at h
      subst h
      simp [atChain, hp]
    · simp only [hasChain, hp, if_false, Option.map_eq_some'] at h
      rcases h with ⟨j, hj, rfl⟩
      simp [atChain, hp, ih hj]

/-- a miss with a reflexive strategy appends one pair with a null element
at the tail and answers with its position. -/
lemma atChain_of_none {c : K → K → Int} {key : K}
    {l : List (HashPair K V)} (h : hasChain c key l = none)
    (hk : c key key = 0) :
    atChain c key l = some (l ++ [⟨key, none⟩], l.length) := by
  induction l with
  | nil => simp [atChain, hk]
  | cons q rest ih =>
    by_cases hq : c key q.key = 0
    · simp [hasChain, hq] at h
    · simp only [hasChain, hq, if_false, Option.map_eq_none'] at h
      simp [atChain, hq, ih h]

/-- a miss with a strategy that is irreflexive at the key diverges. -/
lemma atChain_of_none_irrefl {c : K → K → Int} {key : K}
    {l : List (HashPair K V)} (h : hasChain c key l = none)
    (hk : c key key ≠ 0) :
    atChain c key l = none := by
  induction l with
  | nil => simp [atChain, hk]
  | cons q rest ih =>
    by_cases hq : c key q.key = 0
    · simp [hasChain, hq] at h
    · simp only [hasChain, hq, if_false, Option.map_eq_none'] at h
      simp [atChain, hq, ih h]

/-- with a strategy irreflexive at the key, the loop never terminates on
an empty chain: it keeps inserting and re-testing, whatever the budget. -/
lemma atChainFuel_nil_irrefl (c : K → K → Int) (key : K)
    (hk : c key key ≠ 0) (fuel : Nat) :
    atChainFuel (V := V) c key fuel [] = none := by
  induction fuel with
  | zero => rfl
  | succ f ih => simp [atChainFuel, hk, ih]

/-- a terminating denotation is reached by the loop within one pass over
the chain: length-plus-one iterations of fuel suffice. -/
lemma atChain_fuel_complete {c : K → K → Int} {key : K}
    {l : List (HashPair K V)} {x : List (HashPair K V) × Nat}
    (h : atChain c key l = some x) :
    atChainFuel c key (l.length + 1) l = some x := by
  induction l generalizing x with
  | nil =>
    by_cases hk : c key key = 0
    · simp only [atChain, hk, if_true, Option.some.injEq] at h
      simp [atChainFuel, hk, h]
    · simp [atChain, hk] at h
  | cons p rest ih =>
    by_cases hp : c key p.key = 0
    · simp only [atChain, hp, if_true, Option.some.injEq] at h
      simp [atChainFuel, hp, h]
    · simp only [atChain, hp, if_false, Option.map_eq_some'] at h
      rcases h with ⟨y, hy, rfl⟩
      simp [atChainFuel, hp, ih hy]

/-- C10: the tail-walk loop of HashTable_At re-tests the equality strategy
on the pair it has just inserted, so over chains without duplicate keys it
terminates with at most one inserted node, for every chain, exactly when
the strategy is reflexive at the looked-up key; and when it is, a budget
of one pass (chain length plus one iterations) already suffices. -/
theorem claim_C10 (c : K → K → Int) (k : K) :
    ((∀ l : List (HashPair K V),
        l.Pairwise (fun p q => c p.key q.key ≠ 0) →
        ∃ fuel x, atChainFuel c k fuel l = some x ∧
          x.1.length ≤ l.length + 1)
      ↔ c k k = 0) ∧
    (c k k = 0 → ∀ l : List (HashPair K V),
      ∃ x, atChainFuel c k (l.length + 1) l = some x ∧
        x.1.length ≤ l.length + 1) := by
  have main : c k k = 0 → ∀ l : List (HashPair K V),
      ∃ x, atChainFuel c k (l.length + 1) l = some x ∧
        x.1.length ≤ l.length + 1 := by
    intro hk l
    cases hfind : hasChain c k l with
    | some i =>
      exact ⟨(l, i), atChain_fuel_complete (atChain_of_found hfind),
        Nat.le_succ _⟩
    | none =>
      refine ⟨(l ++ [⟨k, none⟩], l.length),
        atChain_fuel_complete (atChain_of_none hfind hk), ?_⟩
      simp
  refine ⟨⟨fun H => ?_, fun hk l _ => ⟨l.length + 1, main hk l⟩⟩, main⟩
  by_contra hk
  obtain ⟨fuel, x, hx, _⟩ := H [] (List.Pairwise.nil)
  rw [atChainFuel_nil_irrefl c k hk fuel] at hx
  exact Option.noConfusion hx

/-! Table-level lemmas for value stability and insertion. -/

/-- writeRef unfolded on a table with an allocated bucket array. -/
lemma writeRef_eq (t : HashTable K V) (arr : List (List (HashPair K V)))
    (ha : t.hashListArr = some arr) (r : Nat × Nat) (v : V) :
    writeRef t r v =
      { t with
        hashListArr := some (arr.set r.1 (setElem (arr.getD r.1 []) r.2 v)) } := by
  unfold writeRef
  rw [ha]

/-- entriesOf unfolded on a table with an allocated bucket array. -/
lemma entriesOf_eq (t : HashTable K V) (arr : List (List (HashPair K V)))
    (ha : t.hashListArr = some arr) : entriesOf t = arr.flatten := by
  unfold entriesOf
  rw [ha]
  rfl

/-- bucketOf unfolded on a table with an allocated bucket array. -/
lemma bucketOf_eq (t : HashTable K V) (arr : List (List (HashPair K V)))
    (ha : t.hashListArr = some arr) (b : Nat) :
    bucketOf t b = arr.getD b [] := by
  unfold bucketOf
  rw [ha]
  rfl

/-- membership in one bucket gives membership among all entries. -/
lemma mem_getD_mem_flatten {α : Type} (L : List (List α)) (b : Nat) {a : α}
    (h : a ∈ L.getD b []) : a ∈ L.flatten := by
  by_cases hb : b < L.length
  · rw [List.getD_eq_getElem _ _ hb] at h
    exact List.mem_flatten.mpr ⟨L[b], List.getElem_mem _, h⟩
  · rw [List.getD_eq_default _ _ (Nat.le_of_not_lt hb)] at h
    simp at h

open List in
/-- appending one element to one bucket permutes the flattened entry list
into the old entries followed by that element. -/
lemma set_append_flatten_perm {α : Type} (L : List (List α)) (b : Nat)
    (p : α) (hb : b < L.length) :
    (L.set b (L.getD b [] ++ [p])).flatten ~ L.flatten ++ [p] := by
  induction L generalizing b with
  | nil => simp at hb
  | cons ch rest ih =>
    cases b with
    | zero =>
      simp only [List.set_cons_zero, List.getD_cons_zero, List.flatten_cons]
      calc (ch ++ [p]) ++ rest.flatten
          = ch ++ ([p] ++ rest.flatten) := by rw [List.append_assoc]
        _ ~ ch ++ (rest.flatten ++ [p]) :=
            List.Perm.append_left _ List.perm_append_comm
        _ = ch ++ rest.flatten ++ [p] := (List.append_assoc ..).symm
    | succ m =>
      have hm : m < rest.length := Nat.lt_of_succ_lt_succ hb
      simp only [List.set_cons_succ, List.getD_cons_succ, List.flatten_cons]
      calc ch ++ (rest.set m (rest.getD m [] ++ [p])).flatten
          ~ ch ++ (rest.flatten ++ [p]) := List.Perm.append_left _ (ih m hm)
        _ = ch ++ rest.flatten ++ [p] := (List.append_assoc ..).symm

/-- HASHSIZE is positive, so a bucket index reduced modulo it is in
range. -/
lemma mod_HASHSIZE_lt (n : Nat) : n % HASHSIZE < HASHSIZE :=
  Nat.mod_lt _ (by decide)

/-- C2: writing a value through the reference getOrInsert returns and
calling getOrInsert or lookup again with the same key yields the very same
reference, whose slot now reads the written value; the repeated
getOrInsert also leaves the table unchanged. -/
theorem claim_C2 (t : HashTable K V) (c : K → K → Int) (h : K → Nat)
    (arr : List (List (HashPair K V))) (k : K) (v : V)
    (hc : t.cmp = some c) (hh : t.hash = some h)
    (ha : t.hashListArr = some arr) (hlen : arr.length = HASHSIZE)
    (hrefl : c k k = 0) :
    ∃ r t1, HashTable_At t k = some (r, t1) ∧
      HashTable_At (writeRef t1 r v) k = some (r, writeRef t1 r v) ∧
      HashTable_Has (writeRef t1 r v) k = some r ∧
      readRef (writeRef t1 r v) r = some v := by
  have hblt : h k % HASHSIZE < arr.length := hlen ▸ mod_HASHSIZE_lt (h k)
  cases hfind : hasChain c k (arr.getD (h k % HASHSIZE) []) with
  | some i =>
    have hat : HashTable_At t k = some ((h k % HASHSIZE, i), t) := by
      rw [At_eq t c h arr k hc hh ha, atChain_of_found hfind,
        Option.map_some']
      rw [set_getD_self, table_eta t arr ha]
    refine ⟨(h k % HASHSIZE, i), t, hat, ?_⟩
    rw [writeRef_eq t arr ha]
    set arr2 := arr.set (h k % HASHSIZE)
      (setElem (arr.getD (h k % HASHSIZE) []) i v) with harr2
    set t2 : HashTable K V := { t with hashListArr := some arr2 } with ht2
    have hc2 : t2.cmp = some c := hc
    have hh2 : t2.hash = some h := hh
    have ha2 : t2.hashListArr = some arr2 := rfl
    have hchain2 : arr2.getD (h k % HASHSIZE) [] =
        setElem (arr.getD (h k % HASHSIZE) []) i v :=
      getD_set_self _ _ hblt
    have hfind2 : hasChain c k (arr2.getD (h k % HASHSIZE) []) = some i := by
      rw [hchain2, hasChain_congr c k (setElem_map_key _ i v), hfind]
    obtain ⟨hilt, p, hp, _⟩ := hasChain_some_spec hfind
    refine ⟨?_, ?_, ?_⟩
    · rw [At_eq t2 c h arr2 k hc2 hh2 ha2, atChain_of_found hfind2,
        Option.map_some']
      rw [set_getD_self, table_eta t2 arr2 ha2]
    · rw [Has_eq t2 c h arr2 k hc2 hh2 ha2, hfind2, Option.map_some']
    · unfold readRef entryAt
      rw [bucketOf_eq t2 arr2 ha2, hchain2, setElem_getElem? hp v]
      rfl
  | none =>
    have hat : HashTable_At t k =
        some ((h k % HASHSIZE, (arr.getD (h k % HASHSIZE) []).length),
          { t with hashListArr := some (arr.set (h k % HASHSIZE)
            (arr.getD (h k % HASHSIZE) [] ++ [⟨k, none⟩])) }) := by
      rw [At_eq t c h arr k hc hh ha, atChain_of_none hfind hrefl,
        Option.map_some']
    set chain := arr.getD (h k % HASHSIZE) [] with hch
    set arr1 := arr.set (h k % HASHSIZE) (chain ++ [⟨k, none⟩]) with harr1
    set t1 : HashTable K V := { t with hashListArr := some arr1 } with ht1
    refine ⟨(h k % HASHSIZE, chain.length), t1, hat, ?_⟩
    have ha1 : t1.hashListArr = some arr1 := rfl
    have hblt1 : h k % HASHSIZE < arr1.length := by
      rw [harr1, List.length_set]
      exact hblt
    have hchain1 : arr1.getD (h k % HASHSIZE) [] = chain ++ [⟨k, none⟩] :=
      getD_set_self _ _ hblt
    rw [writeRef_eq t1 arr1 ha1]
    have hset : setElem (arr1.getD (h k % HASHSIZE) []) chain.length v =
        chain ++ [⟨k, some v⟩] := by
      rw [hchain1, setElem_append_length]
    set arr2 := arr1.set (h k % HASHSIZE)
      (setElem (arr1.getD (h k % HASHSIZE) []) chain.length v) with harr2
    set t2 : HashTable K V := { t1 with hashListArr := some arr2 } with ht2
    have hc2 : t2.cmp = some c := hc
    have hh2 : t2.hash = some h := hh
    have ha2 : t2.hashListArr = some arr2 := rfl
    have hchain2 : arr2.getD (h k % HASHSIZE) [] = chain ++ [⟨k, some v⟩] := by
      rw [harr2, hset]
      exact getD_set_self _ _ hblt1
    have hfind2 : hasChain c k (arr2.getD (h k % HASHSIZE) []) =
        some chain.length := by
      rw [hchain2, hasChain_append c k hfind ⟨k, some v⟩, if_pos hrefl]
    refine ⟨?_, ?_, ?_⟩
    · rw [At_eq t2 c h arr2 k hc2 hh2 ha2, atChain_of_found hfind2,
        Option.map_some']
      rw [set_getD_self, table_eta t2 arr2 ha2]
    · rw [Has_eq t2 c h arr2 k hc2 hh2 ha2, hfind2, Option.map_some']
    · unfold readRef entryAt
      rw [bucketOf_eq t2 arr2 ha2, hchain2, List.getElem?_concat_length]
      rfl

/-- C2 witness at a concrete ready table, key and value. -/
theorem claim_C2_witness :
    ∃ r t1, HashTable_At tNat 5 = some (r, t1) ∧
      HashTable_At (writeRef t1 r 7) 5 = some (r, writeRef t1 r 7) ∧
      HashTable_Has (writeRef t1 r 7) 5 = some r ∧
      readRef (writeRef t1 r 7) r = some 7 :=
  claim_C2 tNat cNat hNat _ 5 7 rfl rfl rfl (List.length_replicate ..)
    (by decide)

/-- C4: getOrInsert on an absent key appends one pair with the given key
and a null value slot at the tail of the selected bucket, grows the entry
count by exactly one, touches no other bucket, and answers with the
reference to that new slot. -/
theorem claim_C4 (t : HashTable K V) (c : K → K → Int) (h : K → Nat)
    (arr : List (List (HashPair K V))) (k : K)
    (hc : t.cmp = some c) (hh : t.hash = some h)
    (ha : t.hashListArr = some arr) (hlen : arr.length = HASHSIZE)
    (hrefl : c k k = 0)
    (habs : ∀ p ∈ entriesOf t, c k p.key ≠ 0) :
    ∃ t', HashTable_At t k =
        some ((h k % HASHSIZE, (bucketOf t (h k % HASHSIZE)).length), t') ∧
      entryCount t' = entryCount t + 1 ∧
      bucketOf t' (h k % HASHSIZE) =
        bucketOf t (h k % HASHSIZE) ++ [⟨k, none⟩] ∧
      (∀ b, b ≠ h k % HASHSIZE → bucketOf t' b = bucketOf t b) ∧
      entryAt t' (h k % HASHSIZE, (bucketOf t (h k % HASHSIZE)).length) =
        some ⟨k, none⟩ := by
  have hblt : h k % HASHSIZE < arr.length := hlen ▸ mod_HASHSIZE_lt (h k)
  have hfind : hasChain c k (arr.getD (h k % HASHSIZE) []) = none := by
    rw [hasChain_eq_none_iff]
    intro p hp
    exact habs p (by
      rw [entriesOf_eq t arr ha]
      exact mem_getD_mem_flatten arr _ hp)
  set chain := arr.getD (h k % HASHSIZE) [] with hch
  set arr1 := arr.set (h k % HASHSIZE) (chain ++ [⟨k, none⟩]) with harr1
  set t1 : HashTable K V := { t with hashListArr := some arr1 } with ht1
  have ha1 : t1.hashListArr = some arr1 := rfl
  have hchain1 : arr1.getD (h k % HASHSIZE) [] = chain ++ [⟨k, none⟩] :=
    getD_set_self _ _ hblt
  have hperm : List.Perm arr1.flatten (arr.flatten ++ [⟨k, none⟩]) :=
    set_append_flatten_perm arr _ _ hblt
  refine ⟨t1, ?_, ?_, ?_, ?_, ?_⟩
  · rw [At_eq t c h arr k hc hh ha, atChain_of_none hfind hrefl,
      Option.map_some', bucketOf_eq t arr ha]
  · rw [entryCount, entryCount, entriesOf_eq t1 arr1 ha1,
      entriesOf_eq t arr ha, hperm.length_eq]
    simp
  · rw [bucketOf_eq t1 arr1 ha1, bucketOf_eq t arr ha, hchain1]
  · intro b hb
    rw [bucketOf_eq t1 arr1 ha1, bucketOf_eq t arr ha, harr1]
    exact getD_set_ne _ _ (fun e => hb e.symm)
  · unfold entryAt
    rw [bucketOf_eq t1 arr1 ha1, bucketOf_eq t arr ha, hchain1,
      List.getElem?_concat_length]

/-- C4 witness at a concrete ready table and an absent key. -/
theorem claim_C4_witness :
    ∃ t', HashTable_At tNat 5 =
        some ((hNat 5 % HASHSIZE, (bucketOf tNat (hNat 5 % HASHSIZE)).length),
          t') ∧
      entryCount t' = entryCount tNat + 1 ∧
      bucketOf t' (hNat 5 % HASHSIZE) =
        bucketOf tNat (hNat 5 % HASHSIZE) ++ [⟨5, none⟩] ∧
      (∀ b, b ≠ hNat 5 % HASHSIZE → bucketOf t' b = bucketOf tNat b) ∧
      entryAt t' (hNat 5 % HASHSIZE, (bucketOf tNat (hNat 5 % HASHSIZE)).length) =
        some ⟨5, none⟩ :=
  claim_C4 tNat cNat hNat _ 5 rfl rfl rfl (List.length_replicate ..)
    (by decide)
    (by
      rw [entriesOf_eq tNat _ rfl]
      simp)

/-! Sequence processing: the uniqueness invariant behind C1 and C6. -/

/-- processAt unfolded one step on a successful HashTable_At call. -/
lemma processAt_cons (t : HashTable K V) (k : K) (ks : List K)
    (r : Nat × Nat) (t1 : HashTable K V)
    (hat : HashTable_At t k = some (r, t1)) :
    processAt t (k :: ks) = processAt t1 ks := by
  show (match HashTable_At t k with
    | none => none
    | some (_, t') => processAt t' ks) = processAt t1 ks
  rw [hat]

/-- newCount only depends on which equivalence classes the seen list
meets, not on the list itself. -/
lemma newCount_congr (c : K → K → Int) {seen₁ seen₂ : List K}
    (h : ∀ x, (∃ s ∈ seen₁, c x s = 0) ↔ (∃ s ∈ seen₂, c x s = 0))
    (ks : List K) : newCount c seen₁ ks = newCount c seen₂ ks := by
  induction ks generalizing seen₁ seen₂ with
  | nil => rfl
  | cons k rest ih =>
    have hck : ∀ seen : List K,
        ((seen.any fun s => decide (c k s = 0)) = true) ↔
          ∃ s ∈ seen, c k s = 0 := by
      intro seen
      simp [List.any_eq_true]
    by_cases h1 : (seen₁.any fun s => decide (c k s = 0)) = true
    · have h2 : (seen₂.any fun s => decide (c k s = 0)) = true :=
        (hck seen₂).mpr ((h k).mp ((hck seen₁).mp h1))
      rw [newCount, newCount, if_pos h1, if_pos h2]
      exact ih h
    · have h2 : ¬ (seen₂.any fun s => decide (c k s = 0)) = true :=
        fun hx => h1 ((hck seen₁).mpr ((h k).mpr ((hck seen₂).mp hx)))
      rw [newCount, newCount, if_neg h1, if_neg h2]
      congr 1
      apply ih
      intro x
      simp only [List.mem_cons, exists_eq_or_imp]
      exact or_congr Iff.rfl (h x)

/-- the freshly initialised bucket array satisfies the table invariant. -/
lemma Inv_init (c : K → K → Int) (h : K → Nat) :
    Inv (V := V) c h (List.replicate HASHSIZE []) := by
  refine ⟨List.length_replicate .., ?_, ?_⟩
  · intro b p hp
    rw [getD_replicate_self] at hp
    simp at hp
  · intro b
    rw [getD_replicate_self]
    exact List.Pairwise.nil

/-- a replicated empty bucket array holds no entry. -/
lemma flatten_replicate_nil {α : Type} (n : Nat) :
    (List.replicate n ([] : List α)).flatten = [] := by
  simp

/-- under the invariant and a hash strategy that respects the equality
strategy, no two entries anywhere in the table have cmp-equal keys. -/
lemma Inv_flatten_pairwise {c : K → K → Int} {h : K → Nat}
    {arr : List (List (HashPair K V))} (hinv : Inv c h arr)
    (hcompat : ∀ a b, c a b = 0 → h a = h b) :
    arr.flatten.Pairwise (fun p q => c p.key q.key ≠ 0) := by
  rw [List.pairwise_flatten]
  constructor
  · intro l hl
    obtain ⟨n, hn, hnl⟩ := List.mem_iff_getElem.mp hl
    have := hinv.nodup n
    rwa [List.getD_eq_getElem _ _ hn, hnl] at this
  · rw [List.pairwise_iff_getElem]
    intro i j hi hj hij x hx y hy hxy
    have hxi : h x.key % HASHSIZE = i :=
      hinv.placed i x (by rwa [List.getD_eq_getElem _ _ hi])
    have hyj : h y.key % HASHSIZE = j :=
      hinv.placed j y (by rwa [List.getD_eq_getElem _ _ hj])
    have hij' : i = j := by rw [← hxi, ← hyj, hcompat _ _ hxy]
    exact absurd hij' (Nat.ne_of_lt hij)

/-- main induction: starting from any invariant-respecting table, a
sequence of HashTable_At calls succeeds, preserves the invariant, grows
the entry total by the number of fresh equivalence classes among the
probed keys, and stores only keys that were already present or probed. -/
lemma processAt_spec (c : K → K → Int) (h : K → Nat)
    (hrefl : ∀ a, c a a = 0)
    (hsymm : ∀ a b, c a b = 0 → c b a = 0)
    (hcompat : ∀ a b, c a b = 0 → h a = h b) :
    ∀ (ks : List K) (t : HashTable K V)
      (arr : List (List (HashPair K V))),
      t.cmp = some c → t.hash = some h → t.hashListArr = some arr →
      Inv c h arr →
      ∃ t' arr', processAt t ks = some t' ∧
        t'.cmp = some c ∧ t'.hash = some h ∧
        t'.hashListArr = some arr' ∧ Inv c h arr' ∧
        arr'.flatten.length =
          arr.flatten.length +
            newCount c (arr.flatten.map HashPair.key) ks ∧
        (∀ x ∈ arr'.flatten.map HashPair.key,
          x ∈ arr.flatten.map HashPair.key ∨ x ∈ ks) := by
  intro ks
  induction ks with
  | nil =>
    intro t arr hc hh ha hinv
    exact ⟨t, arr, rfl, hc, hh, ha, hinv, by rw [newCount]; omega,
      fun x hx => Or.inl hx⟩
  | cons k rest ih =>
    intro t arr hc hh ha hinv
    have hblt : h k % HASHSIZE < arr.length := hinv.len ▸ mod_HASHSIZE_lt (h k)
    cases hfind : hasChain c k (arr.getD (h k % HASHSIZE) []) with
    | some i =>
      have hat : HashTable_At t k = some ((h k % HASHSIZE, i), t) := by
        rw [At_eq t c h arr k hc hh ha, atChain_of_found hfind,
          Option.map_some']
        rw [set_getD_self, table_eta t arr ha]
      obtain ⟨hilt, p, hpi, hpc⟩ := hasChain_some_spec hfind
      have hpmem : p ∈ arr.getD (h k % HASHSIZE) [] :=
        List.getElem?_mem hpi
      have hseen :
          ((arr.flatten.map HashPair.key).any
            fun s => decide (c k s = 0)) = true := by
        rw [List.any_eq_true]
        refine ⟨p.key, List.mem_map_of_mem _
          (mem_getD_mem_flatten arr _ hpmem), by simpa using hpc⟩
      obtain ⟨t', arr', hrun, hc', hh', ha', hinv', hcount, hprov⟩ :=
        ih t arr hc hh ha hinv
      refine ⟨t', arr', ?_, hc', hh', ha', hinv', ?_, ?_⟩
      · rw [processAt_cons t k rest _ t hat]
        exact hrun
      · rw [newCount, if_pos hseen]
        exact hcount
      · intro x hx
        rcases hprov x hx with hin | hin
        · exact Or.inl hin
        · exact Or.inr (List.mem_cons_of_mem _ hin)
    | none =>
      have hchainmiss : ∀ p ∈ arr.getD (h k % HASHSIZE) [], c k p.key ≠ 0 :=
        (hasChain_eq_none_iff c k _).mp hfind
      have habs : ∀ q ∈ arr.flatten, c k q.key ≠ 0 := by
        intro q hq hcq
        obtain ⟨l, hl, hql⟩ := List.mem_flatten.mp hq
        obtain ⟨n, hn, hnl⟩ := List.mem_iff_getElem.mp hl
        have hqn : q ∈ arr.getD n [] := by
          rw [List.getD_eq_getElem _ _ hn, hnl]
          exact hql
        have hplace : h q.key % HASHSIZE = n := hinv.placed n q hqn
        have hbn : h k % HASHSIZE = n := by
          rw [hcompat _ _ hcq, hplace]
        exact hchainmiss q (hbn ▸ hqn) hcq
      have hseen :
          ((arr.flatten.map HashPair.key).any
            fun s => decide (c k s = 0)) = false := by
        rw [List.any_eq_false]
        intro s hs
        obtain ⟨q, hq, rfl⟩ := List.mem_map.mp hs
        simpa using habs q hq
      set chain := arr.getD (h k % HASHSIZE) [] with hch
      set arr1 := arr.set (h k % HASHSIZE) (chain ++ [⟨k, none⟩]) with harr1
      set t1 : HashTable K V := { t with hashListArr := some arr1 } with ht1
      have hat : HashTable_At t k = some ((h k % HASHSIZE, chain.length), t1) := by
        rw [At_eq t c h arr k hc hh ha, atChain_of_none hfind (hrefl k),
          Option.map_some']
      have hperm : List.Perm arr1.flatten (arr.flatten ++ [⟨k, none⟩]) :=
        set_append_flatten_perm arr _ _ hblt
      have hinv1 : Inv c h arr1 := by
        refine ⟨by rw [harr1, List.length_set]; exact hinv.len, ?_, ?_⟩
        · intro b p hp
          by_cases hb : b = h k % HASHSIZE
          · subst hb
            rw [harr1, getD_set_self _ _ hblt] at hp
            rcases List.mem_append.mp hp with hold | hnew
            · exact hinv.placed _ p hold
            · simp only [List.mem_singleton] at hnew
              subst hnew
              rfl
          · rw [harr1, getD_set_ne _ _ (fun e => hb e.symm)] at hp
            exact hinv.placed b p hp
        · intro b
          by_cases hb : b = h k % HASHSIZE
          · subst hb
            rw [harr1, getD_set_self _ _ hblt, List.pairwise_append]
            refine ⟨hinv.nodup _, List.pairwise_singleton .., ?_⟩
            intro p hp q hq
            simp only [List.mem_singleton] at hq
            subst hq
            intro hpk
            exact hchainmiss p hp (hsymm _ _ hpk)
          · rw [harr1, getD_set_ne _ _ (fun e => hb e.symm)]
            exact hinv.nodup b
      obtain ⟨t', arr', hrun, hc', hh', ha', hinv', hcount, hprov⟩ :=
        ih t1 arr1 hc hh rfl hinv1
      have hkeys : ∀ x, (∃ s ∈ arr1.flatten.map HashPair.key, c x s = 0) ↔
          (∃ s ∈ k :: arr.flatten.map HashPair.key, c x s = 0) := by
        intro x
        constructor
        · rintro ⟨s, hs, hxs⟩
          rw [(hperm.map HashPair.key).mem_iff, List.map_append] at hs
          rcases List.mem_append.mp hs with hold | hnew
          · exact ⟨s, List.mem_cons_of_mem _ hold, hxs⟩
          · simp only [List.map_cons, List.map_nil, List.mem_singleton] at hnew
            subst hnew
            exact ⟨s, List.mem_cons_self .., hxs⟩
        · rintro ⟨s, hs, hxs⟩
          refine ⟨s, ?_, hxs⟩
          rw [(hperm.map HashPair.key).mem_iff, List.map_append]
          rcases List.mem_cons.mp hs with hnew | hold
          · subst hnew
            refine List.mem_append.mpr (Or.inr ?_)
            simp
          · exact List.mem_append.mpr (Or.inl hold)
      refine ⟨t', arr', ?_, hc', hh', ha', hinv', ?_, ?_⟩
      · rw [processAt_cons t k rest _ t1 hat]
        exact hrun
      · rw [newCount, if_neg (by rw [hseen]; exact Bool.false_ne_true)]
        rw [hcount, hperm.length_eq, newCount_congr c hkeys rest]
        simp only [List.length_append, List.length_cons, List.length_nil]
        omega
      · intro x hx
        rcases hprov x hx with hin | hin
        · rw [(hperm.map HashPair.key).mem_iff, List.map_append] at hin
          rcases List.mem_append.mp hin with hold | hnew
          · exact Or.inl hold
          · simp only [List.map_cons, List.map_nil, List.mem_singleton] at hnew
            subst hnew
            exact Or.inr (List.mem_cons_self ..)
        · exact Or.inr (List.mem_cons_of_mem _ hin)

/-- C1: over any call sequence of getOrInsert on a freshly initialised
table with a consistent equality strategy (an equivalence respected by the
hash strategy), every call succeeds, the final entry total equals the
number of distinct keys probed, and after every prefix of the sequence no
two live entries anywhere in the table have cmp-equal keys. -/
theorem claim_C1 (c : K → K → Int) (h : K → Nat) (t0 : HashTable K V)
    (o : Bool) (ks : List K)
    (hrefl : ∀ a, c a a = 0)
    (hsymm : ∀ a b, c a b = 0 → c b a = 0)
    (hcompat : ∀ a b, c a b = 0 → h a = h b) :
    (∃ t', processAt (HashTable_Init t0 (some c) (some h) o) ks = some t' ∧
       entryCount t' = distinctCount c ks) ∧
    (∀ pre post, ks = pre ++ post →
       ∃ tp, processAt (HashTable_Init t0 (some c) (some h) o) pre =
           some tp ∧
         (entriesOf tp).Pairwise (fun p q => c p.key q.key ≠ 0)) := by
  constructor
  · obtain ⟨t', arr', hrun, _, _, ha', _, hcount, _⟩ :=
      processAt_spec c h hrefl hsymm hcompat ks
        (HashTable_Init t0 (some c) (some h) o)
        (List.replicate HASHSIZE []) rfl rfl rfl (Inv_init c h)
    refine ⟨t', hrun, ?_⟩
    rw [entryCount, entriesOf_eq t' arr' ha', hcount, flatten_replicate_nil]
    simp [distinctCount]
  · intro pre post _
    obtain ⟨tp, arrp, hrun, _, _, hap, hinvp, _, _⟩ :=
      processAt_spec c h hrefl hsymm hcompat pre
        (HashTable_Init t0 (some c) (some h) o)
        (List.replicate HASHSIZE []) rfl rfl rfl (Inv_init c h)
    refine ⟨tp, hrun, ?_⟩
    rw [entriesOf_eq tp arrp hap]
    exact Inv_flatten_pairwise hinvp hcompat

/-- the concrete equality strategy decides equality of Nat keys. -/
lemma cNat_eq_zero (a b : Nat) : cNat a b = 0 ↔ a = b := by
  by_cases h : a = b <;> simp [cNat, h]

/-- reflexivity of the concrete equality strategy. -/
lemma cNat_refl : ∀ a, cNat a a = 0 := fun a => (cNat_eq_zero a a).mpr rfl

/-- symmetry of the concrete equality strategy. -/
lemma cNat_symm : ∀ a b, cNat a b = 0 → cNat b a = 0 := fun a b hab =>
  (cNat_eq_zero b a).mpr ((cNat_eq_zero a b).mp hab).symm

/-- the concrete hash strategy respects the concrete equality strategy. -/
lemma cNat_compat : ∀ a b, cNat a b = 0 → hNat a = hNat b := fun a b hab =>
  congrArg hNat ((cNat_eq_zero a b).mp hab)

/-- C1 witness at a concrete strategy triple and the call sequence
probing keys 1, 1, 2. -/
theorem claim_C1_witness :
    (∃ t', processAt
        (HashTable_Init (zeroTable Nat Nat) (some cNat) (some hNat) false)
        [1, 1, 2] = some t' ∧
       entryCount t' = distinctCount cNat [1, 1, 2]) ∧
    (∀ pre post, [1, 1, 2] = pre ++ post →
       ∃ tp, processAt
           (HashTable_Init (zeroTable Nat Nat) (some cNat) (some hNat) false)
           pre = some tp ∧
         (entriesOf tp).Pairwise (fun p q => cNat p.key q.key ≠ 0)) :=
  claim_C1 cNat hNat (zeroTable Nat Nat) false [1, 1, 2]
    cNat_refl cNat_symm cNat_compat

/-- C6: looking up a key never probed by the call sequence that built the
table returns null; lookup itself is a pure function of the table, so no
table state changes. -/
theorem claim_C6 (c : K → K → Int) (h : K → Nat) (t0 : HashTable K V)
    (o : Bool) (ks : List K) (k : K)
    (hrefl : ∀ a, c a a = 0)
    (hsymm : ∀ a b, c a b = 0 → c b a = 0)
    (hcompat : ∀ a b, c a b = 0 → h a = h b)
    (hks : ∀ s ∈ ks, c k s ≠ 0) :
    ∃ t', processAt (HashTable_Init t0 (some c) (some h) o) ks = some t' ∧
      HashTable_Has t' k = none := by
  obtain ⟨t', arr', hrun, hc', hh', ha', _, _, hprov⟩ :=
    processAt_spec c h hrefl hsymm hcompat ks
      (HashTable_Init t0 (some c) (some h) o)
      (List.replicate HASHSIZE []) rfl rfl rfl (Inv_init c h)
  refine ⟨t', hrun, ?_⟩
  rw [Has_eq t' c h arr' k hc' hh' ha', Option.map_eq_none',
    hasChain_eq_none_iff]
  intro p hp
  have hkey : p.key ∈ arr'.flatten.map HashPair.key :=
    List.mem_map_of_mem _ (mem_getD_mem_flatten arr' _ hp)
  rcases hprov p.key hkey with hin | hin
  · rw [flatten_replicate_nil] at hin
    simp at hin
  · exact hks _ hin

/-- C6 witness: a table built from keys 1 and 2 misses on key 3. -/
theorem claim_C6_witness :
    ∃ t', processAt
        (HashTable_Init (zeroTable Nat Nat) (some cNat) (some hNat) false)
        [1, 2] = some t' ∧
      HashTable_Has t' 3 = none :=
  claim_C6 cNat hNat (zeroTable Nat Nat) false [1, 2] 3
    cNat_refl cNat_symm cNat_compat (by decide)

end Chash
